import Mathlib

/-!
Verification of the ink! voting contract (`src/lib.rs`, module `voting`).

The contract stores three pieces of state:
  * `runners : Vec<AccountId>` — append-only list of candidates with ≥1 vote;
  * `votes : Mapping<AccountId, u32>` — per-candidate vote counters;
  * `already_voted : Mapping<AccountId, bool>` — per-voter participation flags.

We embed the state shallowly: `AccountId` becomes `Nat` (an opaque identity
with decidable equality), the two ink `Mapping`s become association lists with
first-match lookup and prepend-insert (which realises the get/insert overwrite
semantics of `Mapping`), and the `u32` counters become `Nat` with the overflow
boundary `U32_MAX = 2^32 - 1` made explicit in `checked_add_one`, mirroring
Rust's `u32::checked_add`.

`vote` takes `&mut self` in Rust: mutations performed before an early
`return Err(..)` persist on the receiver.  The embedding therefore returns the
post-state *together* with the message result, `Voting × Except VoteError Unit`.
-/

/-- The value of `u32::MAX`, the saturation point of a vote counter. -/
def U32_MAX : Nat := 4294967295

/-- `AccountId`: an opaque, comparable identity (voters and candidates share it). -/
abbrev AccountId := Nat

/-- Lookup in an ink `Mapping`, embedded as first-match association-list lookup
(`Mapping::get`, returning `Option`). -/
def mapGet {α : Type} : List (AccountId × α) → AccountId → Option α
  | [], _ => none
  | (k, v) :: rest, a => if k = a then some v else mapGet rest a

/-- Insert into an ink `Mapping` (`Mapping::insert`): prepending a binding
overwrites any earlier one under first-match lookup. -/
def mapInsert {α : Type} (m : List (AccountId × α)) (k : AccountId) (v : α) :
    List (AccountId × α) :=
  (k, v) :: m

/-- The error enum `VoteError` of the contract. -/
inductive VoteError : Type where
  | AlreadyVoted : VoteError
  | VoteOverflow : VoteError
deriving DecidableEq, Repr

/-- The `#[ink(storage)]` struct `Voting`. -/
structure Voting : Type where
  runners : List AccountId
  votes : List (AccountId × Nat)
  already_voted : List (AccountId × Bool)
deriving DecidableEq, Repr

/-- Constructor `Voting::new`: all three state structures start empty. -/
def Voting.new : Voting :=
  { runners := [], votes := [], already_voted := [] }

/-- Message `get_votes`: the stored count for `address`, defaulting to 0
(`self.votes.get(address).unwrap_or_default()`). -/
def Voting.get_votes (s : Voting) (address : AccountId) : Nat :=
  (mapGet s.votes address).getD 0

/-- Rust `current_votes.checked_add(1)` on a `u32`: `none` exactly when the
increment would pass `U32_MAX`. -/
def checked_add_one (n : Nat) : Option Nat :=
  if n + 1 ≤ U32_MAX then some (n + 1) else none

/-- Message `vote` (`&mut self`): returns the post-state and the result.
Mirrors `src/lib.rs` line by line: the `AlreadyVoted` early return, the
`already_voted` insert, the `runners.push` when the current count is 0, and
the overflow-checked increment whose `None` branch returns `VoteOverflow`
without touching the stored count. -/
def Voting.vote (s : Voting) (caller : AccountId) (address : AccountId) :
    Voting × Except VoteError Unit :=
  if (mapGet s.already_voted caller).getD false then
    (s, Except.error VoteError.AlreadyVoted)
  else
    let s1 : Voting := { s with already_voted := mapInsert s.already_voted caller true }
    let current_votes : Nat := (mapGet s1.votes address).getD 0
    let s2 : Voting :=
      if current_votes = 0 then { s1 with runners := s1.runners ++ [address] } else s1
    match checked_add_one current_votes with
    | some new_votes =>
        ({ s2 with votes := mapInsert s2.votes address new_votes }, Except.ok ())
    | none => (s2, Except.error VoteError.VoteOverflow)

/-- One iteration of the `for runner in &self.runners` loop of
`get_current_winner`, acting on the pair (current_winners, highest_votes). -/
def winnerStep (s : Voting) (acc : List AccountId × Nat) (runner : AccountId) :
    List AccountId × Nat :=
  let votes : Nat := (mapGet s.votes runner).getD 0
  match compare votes acc.2 with
  | Ordering.gt => ([runner], votes)
  | Ordering.eq => (acc.1 ++ [runner], acc.2)
  | Ordering.lt => acc

/-- Message `get_current_winner`: fold the loop body over `runners` starting
from the empty winner list and `highest_votes = 0`. -/
def Voting.get_current_winner (s : Voting) : List AccountId :=
  (s.runners.foldl (winnerStep s) ([], 0)).1

/-- States reachable from the freshly constructed ledger by `vote` calls
(`get_votes` and `get_current_winner` take `&self` and cannot change state). -/
inductive Reachable : Voting → Prop where
  | new : Reachable Voting.new
  | vote (s : Voting) (caller address : AccountId) :
      Reachable s → Reachable (s.vote caller address).1

/-- Zero or more `vote` calls leading from one state to another. -/
inductive Steps : Voting → Voting → Prop where
  | refl (s : Voting) : Steps s s
  | vote (s s' : Voting) (caller address : AccountId) :
      Steps s s' → Steps s (s'.vote caller address).1

/-- The maximum of the vote counts of the accounts in `l` (and 0), computed as
the loop in `get_current_winner` computes its running maximum. -/
def maxVotesOver (s : Voting) (l : List AccountId) : Nat :=
  l.foldl (fun m r => max m (s.get_votes r)) 0

/-- The maximum vote count present among the runners of `s`. -/
def maxRunnerVotes (s : Voting) : Nat :=
  maxVotesOver s s.runners

/- ### Basic lemmas about the storage maps -/

theorem mapGet_insert_self {α : Type} (m : List (AccountId × α)) (k : AccountId) (v : α) :
    mapGet (mapInsert m k v) k = some v := by
  simp [mapGet, mapInsert]

theorem mapGet_insert_ne {α : Type} (m : List (AccountId × α)) (k a : AccountId) (v : α)
    (h : k ≠ a) : mapGet (mapInsert m k v) a = mapGet m a := by
  simp [mapGet, mapInsert, h]

theorem get_votes_def (s : Voting) (a : AccountId) :
    s.get_votes a = (mapGet s.votes a).getD 0 := rfl

/- ### Dispatch lemmas: the three outcomes of `vote` -/

/-- Branch 1 of `vote`: the caller has already voted; the early return leaves
the receiver untouched. -/
theorem vote_of_already (s : Voting) (caller address : AccountId)
    (h : (mapGet s.already_voted caller).getD false = true) :
    s.vote caller address = (s, Except.error VoteError.AlreadyVoted) := by
  simp [Voting.vote, h]

/-- Branch 2 of `vote`: fresh voter and no overflow; the flag is set, the
candidate is appended to `runners` exactly when its count was 0, and the
incremented count is stored. -/
theorem vote_of_fresh_ok (s : Voting) (caller address : AccountId)
    (hflag : (mapGet s.already_voted caller).getD false = false)
    (hle : s.get_votes address + 1 ≤ U32_MAX) :
    s.vote caller address =
      ({ runners := if s.get_votes address = 0 then s.runners ++ [address] else s.runners,
         votes := mapInsert s.votes address (s.get_votes address + 1),
         already_voted := mapInsert s.already_voted caller true }, Except.ok ()) := by
  rw [get_votes_def] at hle
  simp only [Voting.vote, hflag, Bool.false_eq_true, if_false, checked_add_one, hle, if_true,
    get_votes_def]
  by_cases h0 : (mapGet s.votes address).getD 0 = 0 <;> simp [h0]

/-- Branch 3 of `vote`: fresh voter but the counter is saturated; the flag is
still set (it was inserted before the overflow check), but `runners` and
`votes` are unchanged. -/
theorem vote_of_fresh_overflow (s : Voting) (caller address : AccountId)
    (hflag : (mapGet s.already_voted caller).getD false = false)
    (hgt : U32_MAX < s.get_votes address + 1) :
    s.vote caller address =
      ({ s with already_voted := mapInsert s.already_voted caller true },
       Except.error VoteError.VoteOverflow) := by
  rw [get_votes_def] at hgt
  have h0 : (mapGet s.votes address).getD 0 ≠ 0 := by
    intro h
    rw [h] at hgt
    exact absurd hgt (by simp [U32_MAX])
  simp only [Voting.vote, hflag, Bool.false_eq_true, if_false, checked_add_one,
    Nat.not_le.mpr hgt, if_false, h0]

/- ### The winner loop computes the filter of runners by maximal count -/

theorem le_foldl_max (s : Voting) (l : List AccountId) (a : Nat) :
    a ≤ l.foldl (fun m r => max m (s.get_votes r)) a := by
  induction l generalizing a with
  | nil => exact Nat.le_refl a
  | cons y l ih =>
    exact le_trans (le_max_left a (s.get_votes y)) (ih (max a (s.get_votes y)))

theorem mem_le_foldl_max (s : Voting) (l : List AccountId) (x : AccountId) :
    x ∈ l → ∀ a : Nat, s.get_votes x ≤ l.foldl (fun m r => max m (s.get_votes r)) a := by
  induction l with
  | nil => intro hx; cases hx
  | cons y l ih =>
    intro hx a
    rcases List.mem_cons.mp hx with h | h
    · subst h
      exact le_trans (le_max_right a (s.get_votes x)) (le_foldl_max s l _)
    · exact ih h _

theorem foldl_max_attained (s : Voting) (l : List AccountId) (a : Nat) :
    l.foldl (fun m r => max m (s.get_votes r)) a = a ∨
    ∃ x ∈ l, l.foldl (fun m r => max m (s.get_votes r)) a = s.get_votes x := by
  induction l generalizing a with
  | nil => exact Or.inl rfl
  | cons y l ih =>
    rcases ih (max a (s.get_votes y)) with h | ⟨x, hx, h⟩
    · rcases max_choice a (s.get_votes y) with hm | hm
      · exact Or.inl (by rw [List.foldl_cons, h, hm])
      · exact Or.inr ⟨y, List.mem_cons_self y l, by rw [List.foldl_cons, h, hm]⟩
    · exact Or.inr ⟨x, List.mem_cons_of_mem y hx, by rw [List.foldl_cons, h]⟩

theorem maxVotesOver_append_singleton (s : Voting) (p : List AccountId) (r : AccountId) :
    maxVotesOver s (p ++ [r]) = max (maxVotesOver s p) (s.get_votes r) := by
  simp [maxVotesOver, List.foldl_append]

theorem winnerStep_eq (s : Voting) (acc : List AccountId × Nat) (r : AccountId) :
    winnerStep s acc r =
      if acc.2 < s.get_votes r then ([r], s.get_votes r)
      else if s.get_votes r = acc.2 then (acc.1 ++ [r], acc.2)
      else acc := by
  simp only [winnerStep, ← get_votes_def]
  rcases Nat.lt_trichotomy (s.get_votes r) acc.2 with h | h | h
  · rw [Nat.compare_eq_lt.mpr h]
    rw [if_neg (Nat.lt_asymm h), if_neg (Nat.ne_of_lt h)]
  · rw [Nat.compare_eq_eq.mpr h]
    rw [if_neg (by rw [h]; exact Nat.lt_irrefl _), if_pos h]
  · rw [Nat.compare_eq_gt.mpr h, if_pos h]

theorem winner_loop (s : Voting) (l : List AccountId) :
    ∀ p : List AccountId,
      l.foldl (winnerStep s)
        (p.filter (fun r => s.get_votes r == maxVotesOver s p), maxVotesOver s p) =
      ((p ++ l).filter (fun r => s.get_votes r == maxVotesOver s (p ++ l)),
       maxVotesOver s (p ++ l)) := by
  induction l with
  | nil => intro p; simp
  | cons r l ih =>
    intro p
    have hstep :
        winnerStep s (p.filter (fun x => s.get_votes x == maxVotesOver s p), maxVotesOver s p) r
          = ((p ++ [r]).filter (fun x => s.get_votes x == maxVotesOver s (p ++ [r])),
             maxVotesOver s (p ++ [r])) := by
      rw [winnerStep_eq, maxVotesOver_append_singleton]
      rcases Nat.lt_trichotomy (maxVotesOver s p) (s.get_votes r) with h | h | h
      · rw [if_pos h, max_eq_right (Nat.le_of_lt h)]
        have hfilter : p.filter (fun x => s.get_votes x == s.get_votes r) = [] := by
          rw [List.filter_eq_nil_iff]
          intro x hx
          simp only [beq_iff_eq]
          exact Nat.ne_of_lt (Nat.lt_of_le_of_lt (mem_le_foldl_max s p x hx 0) h)
        simp [List.filter_append, hfilter]
      · rw [if_neg (by rw [h]; exact Nat.lt_irrefl _), if_pos h.symm, max_eq_left (Nat.le_of_eq h.symm)]
        simp [List.filter_append, h]
      · rw [if_neg (Nat.lt_asymm h), if_neg (Nat.ne_of_lt h),
          max_eq_left (Nat.le_of_lt h)]
        have : s.get_votes r ≠ maxVotesOver s p := Nat.ne_of_lt h
        simp [List.filter_append, this]
    rw [List.foldl_cons, hstep, ih (p ++ [r]), List.append_assoc]
    rfl

/-- The filter characterisation of `get_current_winner`: it returns exactly the
runners whose count equals the maximal runner count, in `runners` order. -/
theorem get_current_winner_eq_filter (s : Voting) :
    s.get_current_winner = s.runners.filter (fun r => s.get_votes r == maxRunnerVotes s) := by
  have h := winner_loop s s.runners []
  rw [List.nil_append] at h
  unfold Voting.get_current_winner maxRunnerVotes
  exact congrArg Prod.fst h

/- ### The state invariant maintained by `vote` -/

/-- Invariant of the ledger: `runners` holds exactly the candidates with at
least one vote, without duplicates, and no counter exceeds `U32_MAX`. -/
def VotingInv (s : Voting) : Prop :=
  (∀ a, a ∈ s.runners ↔ 1 ≤ s.get_votes a) ∧ s.runners.Nodup ∧ ∀ a, s.get_votes a ≤ U32_MAX

theorem votingInv_new : VotingInv Voting.new := by
  refine ⟨?_, ?_, ?_⟩ <;> simp [Voting.new, Voting.get_votes, mapGet, U32_MAX]

theorem votingInv_vote (s : Voting) (caller address : AccountId) (h : VotingInv s) :
    VotingInv (s.vote caller address).1 := by
  obtain ⟨hmem, hnd, hbound⟩ := h
  by_cases hvoted : (mapGet s.already_voted caller).getD false = true
  case pos =>
    rw [vote_of_already s caller address hvoted]
    exact ⟨hmem, hnd, hbound⟩
  rw [Bool.not_eq_true] at hvoted
  rcases lt_or_le U32_MAX (s.get_votes address + 1) with hgt | hle
  · rw [vote_of_fresh_overflow s caller address hvoted hgt]
    exact ⟨hmem, hnd, hbound⟩
  · rw [vote_of_fresh_ok s caller address hvoted hle]
    have hV : ∀ a, (mapGet (mapInsert s.votes address (s.get_votes address + 1)) a).getD 0
        = if address = a then s.get_votes address + 1 else s.get_votes a := by
      intro a
      by_cases ha : address = a
      · rw [ha, mapGet_insert_self, if_pos rfl]
        rfl
      · rw [mapGet_insert_ne _ _ _ _ ha, if_neg ha, get_votes_def]
    refine ⟨?_, ?_, ?_⟩
    · intro a
      show a ∈ (if s.get_votes address = 0 then s.runners ++ [address] else s.runners)
          ↔ 1 ≤ (mapGet (mapInsert s.votes address (s.get_votes address + 1)) a).getD 0
      rw [hV a]
      by_cases ha : address = a
      · subst ha
        rw [if_pos rfl]
        constructor
        · intro _
          exact Nat.succ_le_succ (Nat.zero_le _)
        · intro _
          by_cases h0 : s.get_votes address = 0
          · rw [if_pos h0]
            exact List.mem_append_right _ (List.mem_singleton_self address)
          · rw [if_neg h0]
            exact (hmem address).mpr (Nat.one_le_iff_ne_zero.mpr h0)
      · rw [if_neg ha]
        by_cases h0 : s.get_votes address = 0
        · rw [if_pos h0, List.mem_append]
          constructor
          · rintro (hin | hin)
            · exact (hmem a).mp hin
            · exact absurd (List.mem_singleton.mp hin) (fun hh => ha hh.symm)
          · intro hin
            exact Or.inl ((hmem a).mpr hin)
        · rw [if_neg h0]
          exact hmem a
    · show (if s.get_votes address = 0 then s.runners ++ [address] else s.runners).Nodup
      by_cases h0 : s.get_votes address = 0
      · rw [if_pos h0, List.nodup_append]
        refine ⟨hnd, List.nodup_singleton address, ?_⟩
        intro x hx hx'
        rw [List.mem_singleton] at hx'
        subst hx'
        have h1 : 1 ≤ s.get_votes x := (hmem x).mp hx
        rw [h0] at h1
        exact absurd h1 (by simp)
      · rw [if_neg h0]
        exact hnd
    · intro a
      show (mapGet (mapInsert s.votes address (s.get_votes address + 1)) a).getD 0 ≤ U32_MAX
      rw [hV a]
      by_cases ha : address = a
      · rw [if_pos ha]
        exact hle
      · rw [if_neg ha]
        exact hbound a


theorem reachable_inv (s : Voting) (h : Reachable s) : VotingInv s := by
  induction h with
  | new => exact votingInv_new
  | vote s caller address _ ih => exact votingInv_vote s caller address ih

/- ### Per-step and multi-step monotonicity of the counters -/

theorem vote_get_votes_le (s : Voting) (caller address a : AccountId) :
    s.get_votes a ≤ ((s.vote caller address).1).get_votes a := by
  by_cases hvoted : (mapGet s.already_voted caller).getD false = true
  case pos =>
    rw [vote_of_already s caller address hvoted]
  rw [Bool.not_eq_true] at hvoted
  rcases lt_or_le U32_MAX (s.get_votes address + 1) with hgt | hle
  · rw [vote_of_fresh_overflow s caller address hvoted hgt]
    exact Nat.le_refl _
  · rw [vote_of_fresh_ok s caller address hvoted hle]
    show s.get_votes a ≤ (mapGet (mapInsert s.votes address (s.get_votes address + 1)) a).getD 0
    by_cases ha : address = a
    · rw [← ha, mapGet_insert_self]
      exact Nat.le_succ _
    · rw [mapGet_insert_ne _ _ _ _ ha]
      exact Nat.le_refl _

theorem steps_get_votes_le (s s' : Voting) (a : AccountId) (h : Steps s s') :
    s.get_votes a ≤ s'.get_votes a := by
  induction h with
  | refl => exact Nat.le_refl _
  | vote t' caller address hst ih => exact Nat.le_trans ih (vote_get_votes_le t' caller address a)

/- ### Auxiliary facts used by the claim theorems -/

theorem exists_max_runner (s : Voting) (h : s.runners ≠ []) :
    ∃ x ∈ s.runners, s.get_votes x = maxRunnerVotes s := by
  rcases foldl_max_attained s s.runners 0 with h0 | ⟨x, hx, hfx⟩
  · obtain ⟨y, hy⟩ := List.exists_mem_of_ne_nil s.runners h
    refine ⟨y, hy, ?_⟩
    have h1 : s.get_votes y ≤ maxRunnerVotes s := mem_le_foldl_max s s.runners y hy 0
    have h2 : maxRunnerVotes s = 0 := h0
    exact Nat.le_antisymm h1 (by rw [h2]; exact Nat.zero_le _)
  · exact ⟨x, hx, hfx.symm⟩

/- ### Claim theorems -/

/-- Claim C1: for every ledger state, `get_current_winner` returns exactly the
runners whose vote count equals the maximum vote count present among runners,
listed in `runners` (insertion) order: the result is the filter of `runners`
keeping the counts equal to `maxRunnerVotes`, so every tied candidate appears
and no candidate with a strictly lower count appears. -/
theorem get_current_winner_tie_inclusive (s : Voting) :
    s.get_current_winner = s.runners.filter (fun r => s.get_votes r == maxRunnerVotes s) ∧
    (∀ a, a ∈ s.runners → s.get_votes a = maxRunnerVotes s → a ∈ s.get_current_winner) ∧
    (∀ a, a ∈ s.get_current_winner → a ∈ s.runners ∧ s.get_votes a = maxRunnerVotes s) := by
  refine ⟨get_current_winner_eq_filter s, ?_, ?_⟩
  · intro a ha hv
    rw [get_current_winner_eq_filter s, List.mem_filter]
    exact ⟨ha, by simp [hv]⟩
  · intro a ha
    rw [get_current_winner_eq_filter s, List.mem_filter] at ha
    exact ⟨ha.1, by simpa using ha.2⟩

theorem get_current_winner_tie_inclusive_witness :
    (10 ∈ (⟨[10, 20], [(20, 1), (10, 1)], [(2, true), (1, true)]⟩ : Voting).runners) ∧
    (⟨[10, 20], [(20, 1), (10, 1)], [(2, true), (1, true)]⟩ : Voting).get_votes 10 =
      maxRunnerVotes (⟨[10, 20], [(20, 1), (10, 1)], [(2, true), (1, true)]⟩ : Voting) ∧
    10 ∈ (⟨[10, 20], [(20, 1), (10, 1)], [(2, true), (1, true)]⟩ : Voting).get_current_winner :=
  ⟨by decide, by decide,
   (get_current_winner_tie_inclusive
      (⟨[10, 20], [(20, 1), (10, 1)], [(2, true), (1, true)]⟩ : Voting)).2.1 10
      (by decide) (by decide)⟩

/-- Claim C2: when the caller's participation flag is already `true`, `vote`
returns the `AlreadyVoted` error and the post-state is the pre-state: no vote
count, no flag and no `runners` entry changes. -/
theorem vote_already_voted_no_change (s : Voting) (caller address : AccountId)
    (h : (mapGet s.already_voted caller).getD false = true) :
    s.vote caller address = (s, Except.error VoteError.AlreadyVoted) :=
  vote_of_already s caller address h

theorem vote_already_voted_no_change_witness :
    (mapGet (⟨[], [], [(7, true)]⟩ : Voting).already_voted 7).getD false = true ∧
    (⟨[], [], [(7, true)]⟩ : Voting).vote 7 3 =
      ((⟨[], [], [(7, true)]⟩ : Voting), Except.error VoteError.AlreadyVoted) :=
  ⟨by decide, vote_already_voted_no_change (⟨[], [], [(7, true)]⟩ : Voting) 7 3 (by decide)⟩

/-- Claim C3: when the caller has not voted and the target's count sits at
`U32_MAX`, `vote` returns `VoteOverflow`, the stored count is unchanged by the
call, and the caller's flag is nevertheless committed as `true`. -/
theorem vote_overflow_flag_committed (s : Voting) (caller address : AccountId)
    (hflag : (mapGet s.already_voted caller).getD false = false)
    (hmax : s.get_votes address = U32_MAX) :
    (s.vote caller address).2 = Except.error VoteError.VoteOverflow ∧
    ((s.vote caller address).1).get_votes address = s.get_votes address ∧
    mapGet ((s.vote caller address).1).already_voted caller = some true := by
  have hgt : U32_MAX < s.get_votes address + 1 := by
    rw [hmax]
    exact Nat.lt_succ_self _
  rw [vote_of_fresh_overflow s caller address hflag hgt]
  exact ⟨rfl, rfl, mapGet_insert_self s.already_voted caller true⟩

theorem vote_overflow_flag_committed_witness :
    (mapGet (⟨[10], [(10, U32_MAX)], []⟩ : Voting).already_voted 5).getD false = false ∧
    (⟨[10], [(10, U32_MAX)], []⟩ : Voting).get_votes 10 = U32_MAX ∧
    (((⟨[10], [(10, U32_MAX)], []⟩ : Voting).vote 5 10).2 =
        Except.error VoteError.VoteOverflow ∧
      (((⟨[10], [(10, U32_MAX)], []⟩ : Voting).vote 5 10).1).get_votes 10 =
        (⟨[10], [(10, U32_MAX)], []⟩ : Voting).get_votes 10 ∧
      mapGet (((⟨[10], [(10, U32_MAX)], []⟩ : Voting).vote 5 10).1).already_voted 5 =
        some true) :=
  ⟨rfl, rfl, vote_overflow_flag_committed (⟨[10], [(10, U32_MAX)], []⟩ : Voting) 5 10 rfl rfl⟩

/-- Claim C4: in every state reachable from the empty ledger by `vote` calls,
a candidate is in `runners` if and only if its vote count is at least 1, each
candidate appears in `runners` at most once, and a fresh vote appends the
candidate to `runners` exactly when its count transitions from 0. -/
theorem runners_iff_positive_votes (s : Voting) (h : Reachable s) :
    (∀ a, a ∈ s.runners ↔ 1 ≤ s.get_votes a) ∧ s.runners.Nodup ∧
    (∀ caller address, (mapGet s.already_voted caller).getD false = false →
      ((s.vote caller address).1).runners =
        if s.get_votes address = 0 then s.runners ++ [address] else s.runners) := by
  obtain ⟨hmem, hnd, _⟩ := reachable_inv s h
  refine ⟨hmem, hnd, ?_⟩
  intro caller address hflag
  rcases lt_or_le U32_MAX (s.get_votes address + 1) with hgt | hle
  · rw [vote_of_fresh_overflow s caller address hflag hgt]
    have h0 : s.get_votes address ≠ 0 := by
      intro hz
      rw [hz] at hgt
      exact absurd hgt (by simp [U32_MAX])
    rw [if_neg h0]
  · rw [vote_of_fresh_ok s caller address hflag hle]

theorem runners_iff_positive_votes_witness :
    (∀ a, a ∈ Voting.new.runners ↔ 1 ≤ Voting.new.get_votes a) ∧
    Voting.new.runners.Nodup ∧
    (∀ caller address, (mapGet Voting.new.already_voted caller).getD false = false →
      ((Voting.new.vote caller address).1).runners =
        if Voting.new.get_votes address = 0 then Voting.new.runners ++ [address]
        else Voting.new.runners) :=
  runners_iff_positive_votes Voting.new Reachable.new

/-- Claim C5: when the caller has not voted and the target's count is below
`U32_MAX`, `vote` succeeds, the stored count becomes its previous value plus
one, and the caller's flag becomes `true`. -/
theorem vote_success_increments (s : Voting) (caller address : AccountId)
    (hflag : (mapGet s.already_voted caller).getD false = false)
    (hlt : s.get_votes address < U32_MAX) :
    (s.vote caller address).2 = Except.ok () ∧
    ((s.vote caller address).1).get_votes address = s.get_votes address + 1 ∧
    mapGet ((s.vote caller address).1).already_voted caller = some true := by
  have hle : s.get_votes address + 1 ≤ U32_MAX := hlt
  rw [vote_of_fresh_ok s caller address hflag hle]
  refine ⟨rfl, ?_, mapGet_insert_self s.already_voted caller true⟩
  show (mapGet (mapInsert s.votes address (s.get_votes address + 1)) address).getD 0
      = s.get_votes address + 1
  rw [mapGet_insert_self]
  rfl

theorem vote_success_increments_witness :
    (mapGet Voting.new.already_voted 1).getD false = false ∧
    Voting.new.get_votes 2 < U32_MAX ∧
    ((Voting.new.vote 1 2).2 = Except.ok () ∧
     ((Voting.new.vote 1 2).1).get_votes 2 = Voting.new.get_votes 2 + 1 ∧
     mapGet ((Voting.new.vote 1 2).1).already_voted 1 = some true) :=
  ⟨rfl, by decide, vote_success_increments Voting.new 1 2 rfl (by decide)⟩

/-- Claim C6: vote counts are non-decreasing across any sequence of operations
(`get_votes` and `get_current_winner` are state-pure in the embedding, so the
sequences are `Steps` of `vote` calls), and in reachable states no counter
ever passes `U32_MAX`. -/
theorem votes_monotone_and_bounded :
    (∀ (s s' : Voting) (a : AccountId), Steps s s' → s.get_votes a ≤ s'.get_votes a) ∧
    (∀ s : Voting, Reachable s → ∀ a : AccountId, s.get_votes a ≤ U32_MAX) := by
  constructor
  · intro s s' a h
    exact steps_get_votes_le s s' a h
  · intro s h a
    exact (reachable_inv s h).2.2 a

theorem votes_monotone_and_bounded_witness :
    Voting.new.get_votes 2 ≤ ((Voting.new.vote 1 2).1).get_votes 2 ∧
    ((Voting.new.vote 1 2).1).get_votes 2 ≤ U32_MAX :=
  ⟨votes_monotone_and_bounded.1 Voting.new ((Voting.new.vote 1 2).1) 2
      (Steps.vote Voting.new Voting.new 1 2 (Steps.refl Voting.new)),
   votes_monotone_and_bounded.2 ((Voting.new.vote 1 2).1)
      (Reachable.vote Voting.new 1 2 Reachable.new) 2⟩

/-- Claim C7: `get_votes` returns the stored count when an entry exists and 0
when none does; it is a total function on the state (it cannot fail) and, by
its type `Voting → AccountId → Nat`, has no effect on the state. -/
theorem get_votes_reads_stored :
    (∀ (s : Voting) (a : AccountId) (n : Nat), mapGet s.votes a = some n → s.get_votes a = n) ∧
    (∀ (s : Voting) (a : AccountId), mapGet s.votes a = none → s.get_votes a = 0) := by
  constructor
  · intro s a n h
    rw [get_votes_def, h]
    rfl
  · intro s a h
    rw [get_votes_def, h]
    rfl

theorem get_votes_reads_stored_witness :
    mapGet (⟨[], [(3, 7)], []⟩ : Voting).votes 3 = some 7 ∧
    (⟨[], [(3, 7)], []⟩ : Voting).get_votes 3 = 7 ∧
    mapGet Voting.new.votes 4 = none ∧
    Voting.new.get_votes 4 = 0 :=
  ⟨rfl, get_votes_reads_stored.1 (⟨[], [(3, 7)], []⟩ : Voting) 3 7 rfl,
   rfl, get_votes_reads_stored.2 Voting.new 4 rfl⟩

/-- Claim C8: on the freshly constructed ledger `get_current_winner` is empty
and `get_votes` is 0 everywhere; in general `get_current_winner` is empty if
and only if `runners` is empty. -/
theorem empty_winner_iff_no_runners :
    Voting.new.get_current_winner = [] ∧ (∀ a, Voting.new.get_votes a = 0) ∧
    (∀ s : Voting, s.get_current_winner = [] ↔ s.runners = []) := by
  refine ⟨rfl, fun _ => rfl, ?_⟩
  intro s
  constructor
  · intro hw
    by_contra hne
    obtain ⟨x, hx, hfx⟩ := exists_max_runner s hne
    have hmemw : x ∈ s.get_current_winner := by
      rw [get_current_winner_eq_filter, List.mem_filter]
      exact ⟨hx, by simp [hfx]⟩
    rw [hw] at hmemw
    exact absurd hmemw (List.not_mem_nil x)
  · intro hr
    rw [get_current_winner_eq_filter, hr]
    rfl

theorem empty_winner_iff_no_runners_witness :
    Voting.new.get_current_winner = [] :=
  (empty_winner_iff_no_runners.2.2 Voting.new).mpr rfl

/-- Claim C9: whenever `vote` returns `VoteOverflow`, `runners` is unchanged
by that call: the overflow branch requires a count of `U32_MAX`, which is
nonzero, so the append guarded by a zero count cannot have happened. -/
theorem overflow_leaves_runners (s : Voting) (caller address : AccountId)
    (h : (s.vote caller address).2 = Except.error VoteError.VoteOverflow) :
    ((s.vote caller address).1).runners = s.runners := by
  by_cases hvoted : (mapGet s.already_voted caller).getD false = true
  case pos =>
    rw [vote_of_already s caller address hvoted] at h
    simp at h
  rw [Bool.not_eq_true] at hvoted
  rcases lt_or_le U32_MAX (s.get_votes address + 1) with hgt | hle
  · rw [vote_of_fresh_overflow s caller address hvoted hgt]
  · rw [vote_of_fresh_ok s caller address hvoted hle] at h
    simp at h

theorem overflow_leaves_runners_witness :
    ((⟨[11], [(11, U32_MAX)], []⟩ : Voting).vote 6 11).2 =
      Except.error VoteError.VoteOverflow ∧
    (((⟨[11], [(11, U32_MAX)], []⟩ : Voting).vote 6 11).1).runners =
      (⟨[11], [(11, U32_MAX)], []⟩ : Voting).runners :=
  ⟨rfl, overflow_leaves_runners (⟨[11], [(11, U32_MAX)], []⟩ : Voting) 6 11 rfl⟩

/-- Claim C10: in every reachable state the sequence returned by
`get_current_winner` has no duplicate `AccountId`: `runners` has no duplicates
there and the winner list is a filter of it. -/
theorem winner_nodup (s : Voting) (h : Reachable s) :
    s.get_current_winner.Nodup := by
  rw [get_current_winner_eq_filter]
  exact List.Nodup.filter _ (reachable_inv s h).2.1

theorem winner_nodup_witness :
    ((Voting.new.vote 1 2).1).get_current_winner.Nodup :=
  winner_nodup ((Voting.new.vote 1 2).1) (Reachable.vote Voting.new 1 2 Reachable.new)
